import Mathlib

/-!
# BSATN: the Spacetime Algebraic Type Notation binary format

A shallow embedding of the BSATN codec documented in `docs/bsatn.md`:
the value model (`AlgebraicValue`), the type model (`AlgebraicType`),
the byte-level encoder `bsatn` defined there, and the decoder and
meta-encoding bridge that the design document specifies as the
encoder's inverse and as the type-to-value transform.

Bytes are modelled as `List Nat`, every byte `< 256`; machine integers
are `Nat`/`Int` with explicit range conditions, and 32/64-bit floats
are carried as their raw bit patterns (the format only ever touches
those bits, via `f32_to_raw_bits` / `f64_to_raw_bits`).
-/

namespace BSATN

/-- Little-endian byte helpers: `natToLE w x` is the `w`-byte
little-endian encoding of `x % 256^w`, matching
`to_little_endian_bytes` of `docs/bsatn.md`. -/
def natToLE : Nat → Nat → List Nat
  | 0, _ => []
  | w + 1, x => (x % 256) :: natToLE w (x / 256)

/-- Read back a little-endian byte list as a natural number. -/
def leToNat : List Nat → Nat
  | [] => 0
  | b :: bs => b + 256 * leToNat bs

/-- Two's-complement representative of a signed integer in `w` bytes,
as a natural number below `256^w`. -/
def twosComp (w : Nat) (x : Int) : Nat :=
  (x % ((256 : Int) ^ w)).toNat

/-- Interpret a `w`-byte unsigned representative as a signed integer
(two's complement). -/
def fromTwosComp (w : Nat) (u : Nat) : Int :=
  if 2 * u < 256 ^ w then (u : Int) else (u : Int) - (256 : Int) ^ w

@[simp] theorem natToLE_length (w x : Nat) : (natToLE w x).length = w := by
  induction w generalizing x with
  | zero => rfl
  | succ w ih => simp [natToLE, ih]

theorem leToNat_natToLE (w x : Nat) : leToNat (natToLE w x) = x % 256 ^ w := by
  induction w generalizing x with
  | zero => simp [natToLE, leToNat, Nat.mod_one]
  | succ w ih =>
    simp only [natToLE, leToNat, ih]
    conv_rhs => rw [pow_succ', Nat.mod_mul]

theorem leToNat_natToLE_of_lt {w x : Nat} (h : x < 256 ^ w) :
    leToNat (natToLE w x) = x := by
  rw [leToNat_natToLE, Nat.mod_eq_of_lt h]

theorem twosComp_lt (w : Nat) (x : Int) : twosComp w x < 256 ^ w := by
  have hpos : (0 : Int) < (256 : Int) ^ w := by positivity
  have := Int.emod_lt_of_pos x hpos
  have hnn := Int.emod_nonneg x (ne_of_gt hpos)
  have hcast : ((256 : Int) ^ w) = ((256 ^ w : Nat) : Int) := by push_cast; ring
  unfold twosComp
  omega

theorem fromTwosComp_twosComp {w : Nat} {x : Int}
    (hlo : -((256 : Int) ^ w / 2) ≤ x) (hhi : x < (256 : Int) ^ w / 2) :
    fromTwosComp w (twosComp w x) = x := by
  have hpos : (0 : Int) < (256 : Int) ^ w := by positivity
  have hmod := Int.emod_emod_of_dvd x (dvd_refl ((256 : Int) ^ w))
  have hnn := Int.emod_nonneg x (ne_of_gt hpos)
  have hlt := Int.emod_lt_of_pos x hpos
  have hcast : ((256 : Int) ^ w) = ((256 ^ w : Nat) : Int) := by push_cast; ring
  rcases le_or_lt 0 x with hx | hx
  · have : x % (256 : Int) ^ w = x := Int.emod_eq_of_lt hx (by omega)
    unfold fromTwosComp twosComp
    rw [this]
    have hxn : (x.toNat : Int) = x := Int.toNat_of_nonneg hx
    have h2 : 2 * x.toNat < 256 ^ w := by
      have h256 : (2 : Int) * x < (256 : Int) ^ w := by omega
      have := hcast
      omega
    simp only [h2, if_true]
    omega
  · have hx' : x % (256 : Int) ^ w = x + (256 : Int) ^ w := by
      have : (x + (256 : Int) ^ w) % (256 : Int) ^ w = x % (256 : Int) ^ w := by
        simp [Int.add_mul_emod_self_left]
      rw [← this]
      refine Int.emod_eq_of_lt (by omega) (by omega)
    unfold fromTwosComp twosComp
    rw [hx']
    have htn : ((x + (256 : Int) ^ w).toNat : Int) = x + (256 : Int) ^ w := by omega
    have h2 : ¬ 2 * (x + (256 : Int) ^ w).toNat < 256 ^ w := by
      have h256 : ¬ (2 : Int) * (x + (256 : Int) ^ w) < (256 : Int) ^ w := by omega
      omega
    simp only [h2, if_false]
    omega

/-- The BSATN value model of `docs/bsatn.md`: a value is a `SumValue`
(tag plus variant data), a `ProductValue` (ordered elements), or a
`BuiltinValue` (booleans, integers, floats, strings, arrays).  Strings
are carried as their UTF-8 bytes, floats as their raw bit patterns. -/
inductive AlgebraicValue : Type where
  | sum (tag : Nat) (data : AlgebraicValue)
  | prod (elements : List AlgebraicValue)
  | bool (b : Bool)
  | u8 (x : Nat)
  | u16 (x : Nat)
  | u32 (x : Nat)
  | u64 (x : Nat)
  | u128 (x : Nat)
  | i8 (x : Int)
  | i16 (x : Int)
  | i32 (x : Int)
  | i64 (x : Int)
  | i128 (x : Int)
  | f32 (bits : Nat)
  | f64 (bits : Nat)
  | string (utf8 : List Nat)
  | array (elements : List AlgebraicValue)


/-- The type model: `SumType` with ordered, labelled variants,
`ProductType` with ordered, labelled elements, and the builtin type
tags including the parametrized `Array` type. -/
inductive AlgebraicType : Type where
  | sum (variants : List (String × AlgebraicType))
  | prod (elements : List (String × AlgebraicType))
  | bool
  | u8
  | u16
  | u32
  | u64
  | u128
  | i8
  | i16
  | i32
  | i64
  | i128
  | f32
  | f64
  | string
  | array (elem : AlgebraicType)


mutual

/-- The encoder `bsatn(x)` of `docs/bsatn.md`:
`bsatn(SumValue) = bsatn(tag) ++ bsatn(variant_data)` with `tag : u8`;
`bsatn(ProductValue) = bsatn(elem_0) ++ .. ++ bsatn(elem_n)`;
`bsatn(Bool(b)) = bsatn(b as u8)`; integers are little-endian of their
exact width; `bsatn(F32/F64)` encode the raw bits as `u32`/`u64`;
`bsatn(String(s)) = bsatn(len(s) as u32) ++ bsatn(bytes(s))`;
`bsatn(Array(a)) = bsatn(len(a) as u32) ++ bsatn(a_0) ++ .. ++ bsatn(a_n)`. -/
def bsatn : AlgebraicValue → List Nat
  | .sum tag data => (tag % 256) :: bsatn data
  | .prod elements => bsatnList elements
  | .bool b => [if b then 1 else 0]
  | .u8 x => natToLE 1 x
  | .u16 x => natToLE 2 x
  | .u32 x => natToLE 4 x
  | .u64 x => natToLE 8 x
  | .u128 x => natToLE 16 x
  | .i8 x => natToLE 1 (twosComp 1 x)
  | .i16 x => natToLE 2 (twosComp 2 x)
  | .i32 x => natToLE 4 (twosComp 4 x)
  | .i64 x => natToLE 8 (twosComp 8 x)
  | .i128 x => natToLE 16 (twosComp 16 x)
  | .f32 bits => natToLE 4 bits
  | .f64 bits => natToLE 8 bits
  | .string s => natToLE 4 s.length ++ s
  | .array a => natToLE 4 a.length ++ bsatnList a

/-- Concatenation of the encodings of a list of values, used for
product elements and array elements. -/
def bsatnList : List AlgebraicValue → List Nat
  | [] => []
  | v :: vs => bsatn v ++ bsatnList vs

end

example : bsatn (.prod [.u32 7, .string [0x68, 0x69], .bool true]) =
    [7, 0, 0, 0, 2, 0, 0, 0, 0x68, 0x69, 1] := by decide

/-- Modelled from the spec: the decode error taxonomy of §7 — the
decoder itself is not part of the repository's sources, which define
only the encoder; `TruncatedInput` (not enough bytes), `InvalidTag`
(sum discriminant out of range), `InvalidUtf8` (string payload not
valid UTF-8). -/
inductive DecodeError : Type where
  | truncatedInput
  | invalidTag
  | invalidUtf8
  deriving DecidableEq

/-- Split off exactly `n` bytes from the front of a byte list,
failing when fewer than `n` remain. -/
def takeExact : Nat → List Nat → Option (List Nat × List Nat)
  | 0, bs => some ([], bs)
  | _ + 1, [] => none
  | n + 1, b :: bs =>
    match takeExact n bs with
    | none => none
    | some (xs, rest) => some (b :: xs, rest)

theorem takeExact_append {n : Nat} {xs : List Nat} (rest : List Nat)
    (h : xs.length = n) : takeExact n (xs ++ rest) = some (xs, rest) := by
  induction xs generalizing n with
  | nil => subst h; rfl
  | cons b bs ih =>
    subst h
    simp only [List.cons_append, List.length_cons, takeExact, List.append_eq, ih rfl]

theorem takeExact_short {n : Nat} {bs : List Nat} (h : bs.length < n) :
    takeExact n bs = none := by
  induction bs generalizing n with
  | nil =>
    match n, h with
    | m + 1, _ => rfl
  | cons b bs ih =>
    match n, h with
    | m + 1, h =>
      have : bs.length < m := by simpa using h
      simp [takeExact, ih this]

/-- A UTF-8 continuation byte, `0x80`–`0xBF`. -/
def isCont (b : Nat) : Bool := 0x80 ≤ b && b ≤ 0xBF

/-- UTF-8 validity of a byte list (RFC 3629 well-formed sequences),
used by the decoder for `InvalidUtf8` detection. -/
def utf8Valid : List Nat → Bool
  | [] => true
  | b :: rest =>
    if b ≤ 0x7F then utf8Valid rest
    else if 0xC2 ≤ b && b ≤ 0xDF then
      match rest with
      | c1 :: rest2 => isCont c1 && utf8Valid rest2
      | [] => false
    else if b == 0xE0 then
      match rest with
      | c1 :: c2 :: rest2 =>
        (0xA0 ≤ c1 && c1 ≤ 0xBF) && (isCont c2 && utf8Valid rest2)
      | _ => false
    else if (0xE1 ≤ b && b ≤ 0xEC) || (b == 0xEE || b == 0xEF) then
      match rest with
      | c1 :: c2 :: rest2 => isCont c1 && (isCont c2 && utf8Valid rest2)
      | _ => false
    else if b == 0xED then
      match rest with
      | c1 :: c2 :: rest2 =>
        (0x80 ≤ c1 && c1 ≤ 0x9F) && (isCont c2 && utf8Valid rest2)
      | _ => false
    else if b == 0xF0 then
      match rest with
      | c1 :: c2 :: c3 :: rest2 =>
        (0x90 ≤ c1 && c1 ≤ 0xBF) && (isCont c2 && (isCont c3 && utf8Valid rest2))
      | _ => false
    else if 0xF1 ≤ b && b ≤ 0xF3 then
      match rest with
      | c1 :: c2 :: c3 :: rest2 =>
        isCont c1 && (isCont c2 && (isCont c3 && utf8Valid rest2))
      | _ => false
    else if b == 0xF4 then
      match rest with
      | c1 :: c2 :: c3 :: rest2 =>
        (0x80 ≤ c1 && c1 ≤ 0x8F) && (isCont c2 && (isCont c3 && utf8Valid rest2))
      | _ => false
    else false

/-- Decode a fixed-width unsigned field: take exactly `w` bytes and
read them little-endian. -/
def decodeFixed (w : Nat) (mk : Nat → AlgebraicValue) (bytes : List Nat) :
    Except DecodeError (AlgebraicValue × List Nat) :=
  match takeExact w bytes with
  | none => .error .truncatedInput
  | some (xs, rest) => .ok (mk (leToNat xs), rest)

/-- Decode a fixed-width signed field: take exactly `w` bytes, read
them little-endian and reinterpret as two's complement. -/
def decodeFixedInt (w : Nat) (mk : Int → AlgebraicValue) (bytes : List Nat) :
    Except DecodeError (AlgebraicValue × List Nat) :=
  match takeExact w bytes with
  | none => .error .truncatedInput
  | some (xs, rest) => .ok (mk (fromTwosComp w (leToNat xs)), rest)

/-- Decode `n` consecutive values with the element decoder `d`,
threading the remaining bytes. -/
def decodeManyWith (d : List Nat → Except DecodeError (AlgebraicValue × List Nat)) :
    Nat → List Nat → Except DecodeError (List AlgebraicValue × List Nat)
  | 0, bs => .ok ([], bs)
  | n + 1, bs =>
    match d bs with
    | .error e => .error e
    | .ok (v, rest) =>
      match decodeManyWith d n rest with
      | .error e => .error e
      | .ok (vs, rest2) => .ok (v :: vs, rest2)

mutual

/-- Modelled from the spec: the decoder (§4.2) — the repository's
sources define only the encoder `bsatn(x)` and state that the decoder
is its inverse, walking the supplied `AlgebraicType` in lock-step with
the encoder's layout, consuming exactly the bytes each sub-value
requires and returning the value with the unconsumed suffix, or a
`DecodeError`.  A sum reads one tag byte, rejects a tag that is not an
index into `SumType.variants` (`InvalidTag`) and otherwise decodes the
selected variant's payload; a product decodes its fields in
declaration order with no prefix; builtins read their fixed widths, a
string reads a `u32` byte length plus that many UTF-8 bytes, an array
reads a `u32` element count plus that many element encodings. -/
def decode : AlgebraicType → List Nat → Except DecodeError (AlgebraicValue × List Nat)
  | .sum variants, bytes =>
    match bytes with
    | [] => .error .truncatedInput
    | tag :: rest =>
      match decodeVariant variants tag rest with
      | .error e => .error e
      | .ok (data, rest2) => .ok (.sum tag data, rest2)
  | .prod fields, bytes =>
    match decodeFields fields bytes with
    | .error e => .error e
    | .ok (vs, rest) => .ok (.prod vs, rest)
  | .bool, bytes =>
    match bytes with
    | [] => .error .truncatedInput
    | b :: rest => .ok (.bool (b != 0), rest)
  | .u8, bytes => decodeFixed 1 .u8 bytes
  | .u16, bytes => decodeFixed 2 .u16 bytes
  | .u32, bytes => decodeFixed 4 .u32 bytes
  | .u64, bytes => decodeFixed 8 .u64 bytes
  | .u128, bytes => decodeFixed 16 .u128 bytes
  | .i8, bytes => decodeFixedInt 1 .i8 bytes
  | .i16, bytes => decodeFixedInt 2 .i16 bytes
  | .i32, bytes => decodeFixedInt 4 .i32 bytes
  | .i64, bytes => decodeFixedInt 8 .i64 bytes
  | .i128, bytes => decodeFixedInt 16 .i128 bytes
  | .f32, bytes => decodeFixed 4 .f32 bytes
  | .f64, bytes => decodeFixed 8 .f64 bytes
  | .string, bytes =>
    match takeExact 4 bytes with
    | none => .error .truncatedInput
    | some (lenB, rest) =>
      match takeExact (leToNat lenB) rest with
      | none => .error .truncatedInput
      | some (s, rest2) =>
        if utf8Valid s then .ok (.string s, rest2) else .error .invalidUtf8
  | .array t, bytes =>
    match takeExact 4 bytes with
    | none => .error .truncatedInput
    | some (lenB, rest) =>
      match decodeManyWith (fun bs => decode t bs) (leToNat lenB) rest with
      | .error e => .error e
      | .ok (vs, rest2) => .ok (.array vs, rest2)

/-- Walk the variant list down to the decoded tag; an exhausted list
means the tag was not an index into the variants — `InvalidTag`. -/
def decodeVariant : List (String × AlgebraicType) → Nat → List Nat →
    Except DecodeError (AlgebraicValue × List Nat)
  | [], _, _ => .error .invalidTag
  | (_, t) :: _, 0, bytes => decode t bytes
  | _ :: vs, k + 1, bytes => decodeVariant vs k bytes

/-- Decode each product field in declaration order. -/
def decodeFields : List (String × AlgebraicType) → List Nat →
    Except DecodeError (List AlgebraicValue × List Nat)
  | [], bytes => .ok ([], bytes)
  | (_, t) :: fs, bytes =>
    match decode t bytes with
    | .error e => .error e
    | .ok (v, rest) =>
      match decodeFields fs rest with
      | .error e => .error e
      | .ok (vs, rest2) => .ok (v :: vs, rest2)

end

/-- Range check for a `w`-byte two's-complement integer. -/
def intInRange (w : Nat) (x : Int) : Bool :=
  decide (-((256 : Int) ^ w / 2) ≤ x ∧ x < (256 : Int) ^ w / 2)

/-- The type of the variant a tag selects, when the tag is a valid
index into the variants list. -/
def variantType : List (String × AlgebraicType) → Nat → Option AlgebraicType
  | [], _ => none
  | (_, t) :: _, 0 => some t
  | _ :: vs, k + 1 => variantType vs k

mutual

/-- Modelled from the spec: the well-formedness invariants of §3 tying
a value to the type that classifies it — a `SumValue`'s `tag` is a
valid index into the `SumType`'s variants (and fits the wire's `u8`
tag byte), a `ProductValue` has exactly the declared fields, each
matching recursively, arrays are homogeneous, integers fit their
declared width, strings are valid UTF-8, and string/array lengths fit
the `u32` length prefix. -/
def sat : AlgebraicValue → AlgebraicType → Bool
  | .sum tag data, .sum variants =>
    decide (tag < 256) &&
      (match variantType variants tag with
       | none => false
       | some t => sat data t)
  | .prod es, .prod fs => satFields es fs
  | .bool _, .bool => true
  | .u8 x, .u8 => decide (x < 256 ^ 1)
  | .u16 x, .u16 => decide (x < 256 ^ 2)
  | .u32 x, .u32 => decide (x < 256 ^ 4)
  | .u64 x, .u64 => decide (x < 256 ^ 8)
  | .u128 x, .u128 => decide (x < 256 ^ 16)
  | .i8 x, .i8 => intInRange 1 x
  | .i16 x, .i16 => intInRange 2 x
  | .i32 x, .i32 => intInRange 4 x
  | .i64 x, .i64 => intInRange 8 x
  | .i128 x, .i128 => intInRange 16 x
  | .f32 bits, .f32 => decide (bits < 256 ^ 4)
  | .f64 bits, .f64 => decide (bits < 256 ^ 8)
  | .string s, .string => decide (s.length < 256 ^ 4) && utf8Valid s
  | .array es, .array t => decide (es.length < 256 ^ 4) && satElems es t
  | _, _ => false

/-- Pointwise satisfaction of product fields. -/
def satFields : List AlgebraicValue → List (String × AlgebraicType) → Bool
  | [], [] => true
  | v :: es, (_, t) :: fs => sat v t && satFields es fs
  | _, _ => false

/-- Every array element satisfies the one declared element type. -/
def satElems : List AlgebraicValue → AlgebraicType → Bool
  | [], _ => true
  | v :: vs, t => sat v t && satElems vs t

end

example : decode (.prod [("a", .u32), ("b", .string), ("c", .bool)])
    [7, 0, 0, 0, 2, 0, 0, 0, 0x68, 0x69, 1] =
    .ok (.prod [.u32 7, .string [0x68, 0x69], .bool true], []) := by rfl

theorem decodeFixed_natToLE (w x : Nat) (mk : Nat → AlgebraicValue) (rest : List Nat)
    (h : x < 256 ^ w) :
    decodeFixed w mk (natToLE w x ++ rest) = .ok (mk x, rest) := by
  simp [decodeFixed, takeExact_append rest (natToLE_length w x), leToNat_natToLE_of_lt h]

theorem decodeFixedInt_natToLE (w : Nat) (x : Int) (mk : Int → AlgebraicValue)
    (rest : List Nat) (h : intInRange w x = true) :
    decodeFixedInt w mk (natToLE w (twosComp w x) ++ rest) = .ok (mk x, rest) := by
  have hb := twosComp_lt w x
  have hr : fromTwosComp w (twosComp w x) = x := by
    have hx := of_decide_eq_true h
    exact fromTwosComp_twosComp hx.1 hx.2
  simp [decodeFixedInt, takeExact_append rest (natToLE_length w _),
    leToNat_natToLE_of_lt hb, hr]

theorem decodeVariant_eq (vs : List (String × AlgebraicType)) (k : Nat) (bytes : List Nat) :
    decodeVariant vs k bytes =
      match variantType vs k with
      | none => .error .invalidTag
      | some t => decode t bytes := by
  induction vs generalizing k with
  | nil => rfl
  | cons v vs ih =>
    obtain ⟨l, t⟩ := v
    cases k with
    | zero => rfl
    | succ k => exact ih k

set_option maxHeartbeats 2000000 in
mutual

/-- Round-trip, generalized over trailing bytes: decoding the
encoding of a value with a type it satisfies returns the value and
leaves the trailing bytes unconsumed. -/
theorem decode_bsatn (v : AlgebraicValue) : ∀ (t : AlgebraicType) (rest : List Nat),
    sat v t = true → decode t (bsatn v ++ rest) = .ok (v, rest) := by
  cases v with
  | sum tag data =>
    intro t rest h
    cases t <;> simp only [sat, Bool.and_eq_true, decide_eq_true_eq, Bool.false_eq_true] at h
    rename_i variants
    obtain ⟨htag, hmatch⟩ := h
    cases hvt : variantType variants tag with
    | none => rw [hvt] at hmatch; simp at hmatch
    | some tv =>
      rw [hvt] at hmatch
      simp only [bsatn, List.cons_append, decode, Nat.mod_eq_of_lt htag,
        decodeVariant_eq, hvt, decode_bsatn data tv rest hmatch]
  | prod es =>
    intro t rest h
    cases t <;> simp only [sat, Bool.false_eq_true] at h
    rename_i fs
    simp only [bsatn, decode, decodeFields_bsatnList es fs rest h]
  | bool b =>
    intro t rest h
    cases t <;> simp only [sat, Bool.false_eq_true] at h
    cases b <;> simp [bsatn, decode]
  | u8 x =>
    intro t rest h
    cases t <;> simp only [sat, Bool.false_eq_true] at h
    simp only [bsatn, decode]
    exact decodeFixed_natToLE 1 x .u8 rest (of_decide_eq_true h)
  | u16 x =>
    intro t rest h
    cases t <;> simp only [sat, Bool.false_eq_true] at h
    simp only [bsatn, decode]
    exact decodeFixed_natToLE 2 x .u16 rest (of_decide_eq_true h)
  | u32 x =>
    intro t rest h
    cases t <;> simp only [sat, Bool.false_eq_true] at h
    simp only [bsatn, decode]
    exact decodeFixed_natToLE 4 x .u32 rest (of_decide_eq_true h)
  | u64 x =>
    intro t rest h
    cases t <;> simp only [sat, Bool.false_eq_true] at h
    simp only [bsatn, decode]
    exact decodeFixed_natToLE 8 x .u64 rest (of_decide_eq_true h)
  | u128 x =>
    intro t rest h
    cases t <;> simp only [sat, Bool.false_eq_true] at h
    simp only [bsatn, decode]
    exact decodeFixed_natToLE 16 x .u128 rest (of_decide_eq_true h)
  | i8 x =>
    intro t rest h
    cases t <;> simp only [sat, Bool.false_eq_true] at h
    simp only [bsatn, decode]
    exact decodeFixedInt_natToLE 1 x .i8 rest h
  | i16 x =>
    intro t rest h
    cases t <;> simp only [sat, Bool.false_eq_true] at h
    simp only [bsatn, decode]
    exact decodeFixedInt_natToLE 2 x .i16 rest h
  | i32 x =>
    intro t rest h
    cases t <;> simp only [sat, Bool.false_eq_true] at h
    simp only [bsatn, decode]
    exact decodeFixedInt_natToLE 4 x .i32 rest h
  | i64 x =>
    intro t rest h
    cases t <;> simp only [sat, Bool.false_eq_true] at h
    simp only [bsatn, decode]
    exact decodeFixedInt_natToLE 8 x .i64 rest h
  | i128 x =>
    intro t rest h
    cases t <;> simp only [sat, Bool.false_eq_true] at h
    simp only [bsatn, decode]
    exact decodeFixedInt_natToLE 16 x .i128 rest h
  | f32 bits =>
    intro t rest h
    cases t <;> simp only [sat, Bool.false_eq_true] at h
    simp only [bsatn, decode]
    exact decodeFixed_natToLE 4 bits .f32 rest (of_decide_eq_true h)
  | f64 bits =>
    intro t rest h
    cases t <;> simp only [sat, Bool.false_eq_true] at h
    simp only [bsatn, decode]
    exact decodeFixed_natToLE 8 bits .f64 rest (of_decide_eq_true h)
  | string s =>
    intro t rest h
    cases t <;> simp only [sat, Bool.and_eq_true, decide_eq_true_eq, Bool.false_eq_true] at h
    obtain ⟨hlen, hval⟩ := h
    simp only [bsatn, decode, List.append_assoc,
      takeExact_append (s ++ rest) (natToLE_length 4 s.length),
      leToNat_natToLE_of_lt hlen, takeExact_append rest (rfl : s.length = s.length), hval,
      if_true]
  | array es =>
    intro t rest h
    cases t <;> simp only [sat, Bool.and_eq_true, decide_eq_true_eq, Bool.false_eq_true] at h
    rename_i et
    obtain ⟨hlen, helems⟩ := h
    simp only [bsatn, decode, List.append_assoc,
      takeExact_append (bsatnList es ++ rest) (natToLE_length 4 es.length),
      leToNat_natToLE_of_lt hlen, decodeElems_bsatnList es et rest helems]

/-- Round-trip for product fields, in declaration order. -/
theorem decodeFields_bsatnList (es : List AlgebraicValue) :
    ∀ (fs : List (String × AlgebraicType)) (rest : List Nat),
    satFields es fs = true → decodeFields fs (bsatnList es ++ rest) = .ok (es, rest) := by
  cases es with
  | nil =>
    intro fs rest h
    cases fs with
    | nil => simp [bsatnList, decodeFields]
    | cons f fs => simp [satFields] at h
  | cons v es =>
    intro fs rest h
    cases fs with
    | nil => simp [satFields] at h
    | cons f fs =>
      obtain ⟨l, t⟩ := f
      simp only [satFields, Bool.and_eq_true] at h
      obtain ⟨h1, h2⟩ := h
      simp only [bsatnList, List.append_assoc, decodeFields,
        decode_bsatn v t (bsatnList es ++ rest) h1,
        decodeFields_bsatnList es fs rest h2]

/-- Round-trip for array elements against the one declared element
type. -/
theorem decodeElems_bsatnList (es : List AlgebraicValue) :
    ∀ (t : AlgebraicType) (rest : List Nat), satElems es t = true →
    decodeManyWith (fun bs => decode t bs) es.length (bsatnList es ++ rest) = .ok (es, rest) := by
  cases es with
  | nil => intro t rest h; simp [bsatnList, decodeManyWith]
  | cons v es =>
    intro t rest h
    simp only [satElems, Bool.and_eq_true] at h
    obtain ⟨h1, h2⟩ := h
    simp only [List.length_cons, bsatnList, List.append_assoc, decodeManyWith,
      decode_bsatn v t (bsatnList es ++ rest) h1,
      decodeElems_bsatnList es t rest h2]

end

example : sat (.prod [.u32 7, .string [0x68, 0x69], .bool true])
    (.prod [("a", .u32), ("b", .string), ("c", .bool)]) = true := by rfl

mutual

/-- Modelled from the spec: the meta-encoding bridge `to_meta_value`
(§4.3) — `docs/bsatn.md` only states that SATS types are BSATN-encoded
by first converting them to an `AlgebraicValue` and refers to an
external document for the conversion.  Following the spec's sketch,
the meta-value is a sum value whose tag distinguishes sum type (0),
product type (1) and builtin type (2), and whose payload lists the
nested meta-values of the sub-types; the builtin payload is itself a
sum over the builtin kinds, with the `Array` variant (tag 14) carrying
the element type's meta-value. -/
def toMetaValue : AlgebraicType → AlgebraicValue
  | .sum vs => .sum 0 (.array (toMetaList vs))
  | .prod fs => .sum 1 (.array (toMetaList fs))
  | .bool => .sum 2 (.sum 0 (.prod []))
  | .u8 => .sum 2 (.sum 1 (.prod []))
  | .u16 => .sum 2 (.sum 2 (.prod []))
  | .u32 => .sum 2 (.sum 3 (.prod []))
  | .u64 => .sum 2 (.sum 4 (.prod []))
  | .u128 => .sum 2 (.sum 5 (.prod []))
  | .i8 => .sum 2 (.sum 6 (.prod []))
  | .i16 => .sum 2 (.sum 7 (.prod []))
  | .i32 => .sum 2 (.sum 8 (.prod []))
  | .i64 => .sum 2 (.sum 9 (.prod []))
  | .i128 => .sum 2 (.sum 10 (.prod []))
  | .f32 => .sum 2 (.sum 11 (.prod []))
  | .f64 => .sum 2 (.sum 12 (.prod []))
  | .string => .sum 2 (.sum 13 (.prod []))
  | .array e => .sum 2 (.sum 14 (toMetaValue e))

/-- Meta-values of the sub-types of a sum or product, in order. -/
def toMetaList : List (String × AlgebraicType) → List AlgebraicValue
  | [] => []
  | (_, t) :: ts => toMetaValue t :: toMetaList ts

end

/-- Modelled from the spec: the decoder specialised to the fixed,
hard-coded meta-schema (§4.2–4.3) — decoding a meta-value's bytes
against the self-referential meta-schema type, which the tree-shaped
`AlgebraicType` model cannot spell out as a constant, so the schema's
recursive structure is carried by this function directly, fuelled for
termination (one unit of fuel per meta-schema level; every level
consumes at least one byte, so the input length is always enough
fuel).  Tag 0 and 1 read an array of nested meta-values, tag 2 reads
the builtin-kind sum whose tags 0–13 carry a unit payload and whose
tag 14 carries a nested meta-value; any other tag is out of range for
the meta-schema's variants. -/
def decodeMetaF : Nat → List Nat → Except DecodeError (AlgebraicValue × List Nat)
  | 0, _ => .error .truncatedInput
  | fuel + 1, bytes =>
    match bytes with
    | [] => .error .truncatedInput
    | 0 :: rest =>
      match takeExact 4 rest with
      | none => .error .truncatedInput
      | some (lenB, rest1) =>
        match decodeManyWith (fun bs => decodeMetaF fuel bs) (leToNat lenB) rest1 with
        | .error e => .error e
        | .ok (vs, rest2) => .ok (.sum 0 (.array vs), rest2)
    | 1 :: rest =>
      match takeExact 4 rest with
      | none => .error .truncatedInput
      | some (lenB, rest1) =>
        match decodeManyWith (fun bs => decodeMetaF fuel bs) (leToNat lenB) rest1 with
        | .error e => .error e
        | .ok (vs, rest2) => .ok (.sum 1 (.array vs), rest2)
    | 2 :: rest =>
      match rest with
      | [] => .error .truncatedInput
      | k :: rest1 =>
        if k < 14 then .ok (.sum 2 (.sum k (.prod [])), rest1)
        else if k = 14 then
          match decodeMetaF fuel rest1 with
          | .error e => .error e
          | .ok (em, rest2) => .ok (.sum 2 (.sum 14 em), rest2)
        else .error .invalidTag
    | _ :: _ => .error .invalidTag

/-- Decode a meta-value with the input length as fuel. -/
def decodeMeta (bytes : List Nat) : Except DecodeError (AlgebraicValue × List Nat) :=
  decodeMetaF bytes.length bytes

mutual

/-- Meta-schema levels needed to decode the meta-value of a type. -/
def metaDepth : AlgebraicType → Nat
  | .sum vs => metaDepthList vs + 1
  | .prod fs => metaDepthList fs + 1
  | .array e => metaDepth e + 1
  | _ => 1

/-- Maximum meta-depth of the sub-types. -/
def metaDepthList : List (String × AlgebraicType) → Nat
  | [] => 0
  | (_, t) :: ts => max (metaDepth t) (metaDepthList ts)

end

mutual

/-- Every sum and product node of the type has fewer than `2^32`
variants or fields, so its child count fits the `u32` length prefix of
the meta-value's array. -/
def wf32 : AlgebraicType → Bool
  | .sum vs => decide (vs.length < 256 ^ 4) && wf32List vs
  | .prod fs => decide (fs.length < 256 ^ 4) && wf32List fs
  | .array e => wf32 e
  | _ => true

/-- `wf32` for every sub-type in the list. -/
def wf32List : List (String × AlgebraicType) → Bool
  | [] => true
  | (_, t) :: ts => wf32 t && wf32List ts

end

theorem toMetaList_length (ts : List (String × AlgebraicType)) :
    (toMetaList ts).length = ts.length := by
  induction ts with
  | nil => rfl
  | cons p ts ih =>
    obtain ⟨l, t⟩ := p
    simp [toMetaList, ih]

mutual

/-- The fuelled meta-decoder is correct on encoded meta-values given
enough fuel, leaving trailing bytes unconsumed. -/
theorem decodeMetaF_toMetaValue (T : AlgebraicType) : ∀ (fuel : Nat) (rest : List Nat),
    metaDepth T ≤ fuel → wf32 T = true →
    decodeMetaF fuel (bsatn (toMetaValue T) ++ rest) = .ok (toMetaValue T, rest) := by
  cases T with
  | sum vs =>
    intro fuel rest hfuel hwf
    simp only [metaDepth] at hfuel
    simp only [wf32, Bool.and_eq_true, decide_eq_true_eq] at hwf
    obtain ⟨hlen, hwfl⟩ := hwf
    match fuel, hfuel with
    | fuel + 1, hfuel =>
      have hd : metaDepthList vs ≤ fuel := by omega
      simp only [toMetaValue, bsatn, List.cons_append, decodeMetaF, List.append_assoc,
        takeExact_append (bsatnList (toMetaList vs) ++ rest) (natToLE_length 4 _),
        toMetaList_length]
      rw [leToNat_natToLE_of_lt (by simpa [toMetaList_length] using hlen)]
      rw [← toMetaList_length vs, decodeMetaF_toMetaList vs fuel rest hd hwfl]
  | prod fs =>
    intro fuel rest hfuel hwf
    simp only [metaDepth] at hfuel
    simp only [wf32, Bool.and_eq_true, decide_eq_true_eq] at hwf
    obtain ⟨hlen, hwfl⟩ := hwf
    match fuel, hfuel with
    | fuel + 1, hfuel =>
      have hd : metaDepthList fs ≤ fuel := by omega
      simp only [toMetaValue, bsatn, List.cons_append, decodeMetaF, List.append_assoc,
        takeExact_append (bsatnList (toMetaList fs) ++ rest) (natToLE_length 4 _),
        toMetaList_length]
      rw [leToNat_natToLE_of_lt (by simpa [toMetaList_length] using hlen)]
      rw [← toMetaList_length fs, decodeMetaF_toMetaList fs fuel rest hd hwfl]
  | array e =>
    intro fuel rest hfuel hwf
    simp only [metaDepth] at hfuel
    simp only [wf32] at hwf
    match fuel, hfuel with
    | fuel + 1, hfuel =>
      have hd : metaDepth e ≤ fuel := by omega
      simp only [toMetaValue, bsatn, List.cons_append, decodeMetaF,
        decodeMetaF_toMetaValue e fuel rest hd hwf]
      norm_num
  | bool => intro fuel rest hfuel hwf
            match fuel, hfuel with
            | fuel + 1, _ => simp [toMetaValue, bsatn, bsatnList, decodeMetaF]
  | u8 => intro fuel rest hfuel hwf
          match fuel, hfuel with
          | fuel + 1, _ => simp [toMetaValue, bsatn, bsatnList, decodeMetaF]
  | u16 => intro fuel rest hfuel hwf
           match fuel, hfuel with
           | fuel + 1, _ => simp [toMetaValue, bsatn, bsatnList, decodeMetaF]
  | u32 => intro fuel rest hfuel hwf
           match fuel, hfuel with
           | fuel + 1, _ => simp [toMetaValue, bsatn, bsatnList, decodeMetaF]
  | u64 => intro fuel rest hfuel hwf
           match fuel, hfuel with
           | fuel + 1, _ => simp [toMetaValue, bsatn, bsatnList, decodeMetaF]
  | u128 => intro fuel rest hfuel hwf
            match fuel, hfuel with
            | fuel + 1, _ => simp [toMetaValue, bsatn, bsatnList, decodeMetaF]
  | i8 => intro fuel rest hfuel hwf
          match fuel, hfuel with
          | fuel + 1, _ => simp [toMetaValue, bsatn, bsatnList, decodeMetaF]
  | i16 => intro fuel rest hfuel hwf
           match fuel, hfuel with
           | fuel + 1, _ => simp [toMetaValue, bsatn, bsatnList, decodeMetaF]
  | i32 => intro fuel rest hfuel hwf
           match fuel, hfuel with
           | fuel + 1, _ => simp [toMetaValue, bsatn, bsatnList, decodeMetaF]
  | i64 => intro fuel rest hfuel hwf
           match fuel, hfuel with
           | fuel + 1, _ => simp [toMetaValue, bsatn, bsatnList, decodeMetaF]
  | i128 => intro fuel rest hfuel hwf
            match fuel, hfuel with
            | fuel + 1, _ => simp [toMetaValue, bsatn, bsatnList, decodeMetaF]
  | f32 => intro fuel rest hfuel hwf
           match fuel, hfuel with
           | fuel + 1, _ => simp [toMetaValue, bsatn, bsatnList, decodeMetaF]
  | f64 => intro fuel rest hfuel hwf
           match fuel, hfuel with
           | fuel + 1, _ => simp [toMetaValue, bsatn, bsatnList, decodeMetaF]
  | string => intro fuel rest hfuel hwf
              match fuel, hfuel with
              | fuel + 1, _ => simp [toMetaValue, bsatn, bsatnList, decodeMetaF]

/-- The fuelled meta-decoder reads back a list of encoded meta-values
elementwise. -/
theorem decodeMetaF_toMetaList (ts : List (String × AlgebraicType)) :
    ∀ (fuel : Nat) (rest : List Nat),
    metaDepthList ts ≤ fuel → wf32List ts = true →
    decodeManyWith (fun bs => decodeMetaF fuel bs) (toMetaList ts).length
      (bsatnList (toMetaList ts) ++ rest) = .ok (toMetaList ts, rest) := by
  cases ts with
  | nil => intro fuel rest hfuel hwf; simp [toMetaList, bsatnList, decodeManyWith]
  | cons p ts =>
    obtain ⟨l, t⟩ := p
    intro fuel rest hfuel hwf
    simp only [metaDepthList, max_le_iff] at hfuel
    simp only [wf32List, Bool.and_eq_true] at hwf
    simp only [toMetaList, bsatnList, List.length_cons, List.append_assoc, decodeManyWith,
      decodeMetaF_toMetaValue t fuel (bsatnList (toMetaList ts) ++ rest) hfuel.1 hwf.1,
      decodeMetaF_toMetaList ts fuel rest hfuel.2 hwf.2]

end

mutual

/-- A meta-value's encoding is at least as long as its meta-depth, so
the input length is always sufficient fuel. -/
theorem metaDepth_le_bsatn_length (T : AlgebraicType) :
    metaDepth T ≤ (bsatn (toMetaValue T)).length := by
  cases T with
  | sum vs =>
    have h := metaDepthList_le_bsatnList_length vs
    simp only [metaDepth, toMetaValue, bsatn, List.length_cons, List.length_append,
      natToLE_length]
    omega
  | prod fs =>
    have h := metaDepthList_le_bsatnList_length fs
    simp only [metaDepth, toMetaValue, bsatn, List.length_cons, List.length_append,
      natToLE_length]
    omega
  | array e =>
    have h := metaDepth_le_bsatn_length e
    simp only [metaDepth, toMetaValue, bsatn, List.length_cons]
    omega
  | bool => simp [metaDepth, toMetaValue, bsatn, bsatnList]
  | u8 => simp [metaDepth, toMetaValue, bsatn, bsatnList]
  | u16 => simp [metaDepth, toMetaValue, bsatn, bsatnList]
  | u32 => simp [metaDepth, toMetaValue, bsatn, bsatnList]
  | u64 => simp [metaDepth, toMetaValue, bsatn, bsatnList]
  | u128 => simp [metaDepth, toMetaValue, bsatn, bsatnList]
  | i8 => simp [metaDepth, toMetaValue, bsatn, bsatnList]
  | i16 => simp [metaDepth, toMetaValue, bsatn, bsatnList]
  | i32 => simp [metaDepth, toMetaValue, bsatn, bsatnList]
  | i64 => simp [metaDepth, toMetaValue, bsatn, bsatnList]
  | i128 => simp [metaDepth, toMetaValue, bsatn, bsatnList]
  | f32 => simp [metaDepth, toMetaValue, bsatn, bsatnList]
  | f64 => simp [metaDepth, toMetaValue, bsatn, bsatnList]
  | string => simp [metaDepth, toMetaValue, bsatn, bsatnList]

/-- The concatenated encodings of the sub-types' meta-values are at
least as long as the maximum sub-type meta-depth. -/
theorem metaDepthList_le_bsatnList_length (ts : List (String × AlgebraicType)) :
    metaDepthList ts ≤ (bsatnList (toMetaList ts)).length := by
  cases ts with
  | nil => simp [metaDepthList, toMetaList, bsatnList]
  | cons p ts =>
    obtain ⟨l, t⟩ := p
    have h1 := metaDepth_le_bsatn_length t
    have h2 := metaDepthList_le_bsatnList_length ts
    simp only [metaDepthList, toMetaList, bsatnList, List.length_append, max_le_iff]
    omega

end

example : decodeMeta (bsatn (toMetaValue (.sum [("a", .prod [("x", .array (.sum [("b", .u8)]))])]))) =
    .ok (toMetaValue (.sum [("a", .prod [("x", .array (.sum [("b", .u8)]))])]), []) := by rfl

theorem decodeVariant_invalidTag (vs : List (String × AlgebraicType)) :
    ∀ (k : Nat) (bytes : List Nat), vs.length ≤ k →
    decodeVariant vs k bytes = .error .invalidTag := by
  induction vs with
  | nil => intro k bytes h; rfl
  | cons v vs ih =>
    intro k bytes h
    obtain ⟨l, t⟩ := v
    match k, h with
    | k + 1, h => exact ih k bytes (by simpa using h)

/-- The byte width of the fixed-width builtin types. -/
def fixedWidth : AlgebraicType → Option Nat
  | .bool => some 1
  | .u8 => some 1
  | .u16 => some 2
  | .u32 => some 4
  | .u64 => some 8
  | .u128 => some 16
  | .i8 => some 1
  | .i16 => some 2
  | .i32 => some 4
  | .i64 => some 8
  | .i128 => some 16
  | .f32 => some 4
  | .f64 => some 8
  | _ => none

theorem decodeFixed_short {w : Nat} (mk : Nat → AlgebraicValue) {bytes : List Nat}
    (h : bytes.length < w) : decodeFixed w mk bytes = .error .truncatedInput := by
  simp [decodeFixed, takeExact_short h]

theorem decodeFixedInt_short {w : Nat} (mk : Int → AlgebraicValue) {bytes : List Nat}
    (h : bytes.length < w) : decodeFixedInt w mk bytes = .error .truncatedInput := by
  simp [decodeFixedInt, takeExact_short h]

theorem decode_short_fixed (t : AlgebraicType) (w : Nat) (bytes : List Nat)
    (hw : fixedWidth t = some w) (hlen : bytes.length < w) :
    decode t bytes = .error .truncatedInput := by
  cases t with
  | sum vs => simp [fixedWidth] at hw
  | prod fs => simp [fixedWidth] at hw
  | bool =>
    cases hw
    match bytes, hlen with
    | [], _ => rfl
  | u8 => cases hw; exact decodeFixed_short _ hlen
  | u16 => cases hw; exact decodeFixed_short _ hlen
  | u32 => cases hw; exact decodeFixed_short _ hlen
  | u64 => cases hw; exact decodeFixed_short _ hlen
  | u128 => cases hw; exact decodeFixed_short _ hlen
  | i8 => cases hw; exact decodeFixedInt_short _ hlen
  | i16 => cases hw; exact decodeFixedInt_short _ hlen
  | i32 => cases hw; exact decodeFixedInt_short _ hlen
  | i64 => cases hw; exact decodeFixedInt_short _ hlen
  | i128 => cases hw; exact decodeFixedInt_short _ hlen
  | f32 => cases hw; exact decodeFixed_short _ hlen
  | f64 => cases hw; exact decodeFixed_short _ hlen
  | string => simp [fixedWidth] at hw
  | array e => simp [fixedWidth] at hw

mutual

/-- A type whose values' encodings are never empty: everything except
products all of whose fields are themselves zero-sized. -/
def consumesInput : AlgebraicType → Bool
  | .prod fs => consumesListInput fs
  | _ => true

/-- Some field of the list consumes input. -/
def consumesListInput : List (String × AlgebraicType) → Bool
  | [] => false
  | (_, t) :: fs => consumesInput t || consumesListInput fs

end

mutual

/-- Decoding an input-consuming type from an exhausted byte list
reports `TruncatedInput`. -/
theorem decode_nil_of_consumes (t : AlgebraicType) :
    consumesInput t = true → decode t [] = .error .truncatedInput := by
  cases t with
  | sum vs => intro h; rfl
  | prod fs =>
    intro h
    simp only [consumesInput] at h
    simp only [decode, decodeFields_nil_of_consumes fs h]
  | bool => intro h; rfl
  | u8 => intro h; rfl
  | u16 => intro h; rfl
  | u32 => intro h; rfl
  | u64 => intro h; rfl
  | u128 => intro h; rfl
  | i8 => intro h; rfl
  | i16 => intro h; rfl
  | i32 => intro h; rfl
  | i64 => intro h; rfl
  | i128 => intro h; rfl
  | f32 => intro h; rfl
  | f64 => intro h; rfl
  | string => intro h; rfl
  | array e => intro h; rfl

/-- Decoding fields from an exhausted byte list reports
`TruncatedInput` as soon as some field consumes input. -/
theorem decodeFields_nil_of_consumes (fs : List (String × AlgebraicType)) :
    consumesListInput fs = true → decodeFields fs [] = .error .truncatedInput := by
  cases fs with
  | nil => intro h; simp [consumesListInput] at h
  | cons p fs =>
    obtain ⟨l, t⟩ := p
    intro h
    simp only [consumesListInput, Bool.or_eq_true] at h
    cases hc : consumesInput t with
    | true => simp only [decodeFields, decode_nil_of_consumes t hc]
    | false =>
      have h2 : consumesListInput fs = true := by
        rcases h with h | h
        · rw [hc] at h; cases h
        · exact h
      obtain ⟨v, hv⟩ := decode_nil_of_not_consumes t hc
      simp only [decodeFields, hv, decodeFields_nil_of_consumes fs h2]

/-- A type that consumes no input decodes successfully from the empty
byte list. -/
theorem decode_nil_of_not_consumes (t : AlgebraicType) :
    consumesInput t = false → ∃ v, decode t [] = .ok (v, []) := by
  cases t with
  | prod fs =>
    intro h
    simp only [consumesInput] at h
    obtain ⟨vs, hvs⟩ := decodeFields_nil_of_not_consumes fs h
    exact ⟨.prod vs, by simp only [decode, hvs]⟩
  | sum vs => intro h; simp [consumesInput] at h
  | bool => intro h; simp [consumesInput] at h
  | u8 => intro h; simp [consumesInput] at h
  | u16 => intro h; simp [consumesInput] at h
  | u32 => intro h; simp [consumesInput] at h
  | u64 => intro h; simp [consumesInput] at h
  | u128 => intro h; simp [consumesInput] at h
  | i8 => intro h; simp [consumesInput] at h
  | i16 => intro h; simp [consumesInput] at h
  | i32 => intro h; simp [consumesInput] at h
  | i64 => intro h; simp [consumesInput] at h
  | i128 => intro h; simp [consumesInput] at h
  | f32 => intro h; simp [consumesInput] at h
  | f64 => intro h; simp [consumesInput] at h
  | string => intro h; simp [consumesInput] at h
  | array e => intro h; simp [consumesInput] at h

/-- A field list none of whose fields consume input decodes
successfully from the empty byte list. -/
theorem decodeFields_nil_of_not_consumes (fs : List (String × AlgebraicType)) :
    consumesListInput fs = false → ∃ vs, decodeFields fs [] = .ok (vs, []) := by
  cases fs with
  | nil => intro h; exact ⟨[], rfl⟩
  | cons p fs =>
    obtain ⟨l, t⟩ := p
    intro h
    simp only [consumesListInput, Bool.or_eq_false_iff] at h
    obtain ⟨v, hv⟩ := decode_nil_of_not_consumes t h.1
    obtain ⟨vs, hvs⟩ := decodeFields_nil_of_not_consumes fs h.2
    exact ⟨v :: vs, by simp only [decodeFields, hv, hvs]⟩

end

mutual

/-- Erase all field and variant labels of a type. -/
def stripLabels : AlgebraicType → AlgebraicType
  | .sum vs => .sum (stripLabelsList vs)
  | .prod fs => .prod (stripLabelsList fs)
  | .array e => .array (stripLabels e)
  | t => t

/-- Erase the labels of a variant or field list. -/
def stripLabelsList : List (String × AlgebraicType) → List (String × AlgebraicType)
  | [] => []
  | (_, t) :: ts => ("", stripLabels t) :: stripLabelsList ts

end

theorem variantType_stripLabelsList (vs : List (String × AlgebraicType)) :
    ∀ k, variantType (stripLabelsList vs) k = (variantType vs k).map stripLabels := by
  induction vs with
  | nil => intro k; rfl
  | cons p vs ih =>
    obtain ⟨l, t⟩ := p
    intro k
    cases k with
    | zero => rfl
    | succ k => exact ih k

mutual

/-- Decoding ignores labels: a type and its label-stripped form decode
any byte list identically. -/
theorem decode_stripLabels (t : AlgebraicType) :
    ∀ bytes, decode (stripLabels t) bytes = decode t bytes := by
  cases t with
  | sum vs =>
    intro bytes
    cases bytes with
    | nil => rfl
    | cons b rest =>
      simp only [stripLabels, decode, decodeVariant_stripLabels vs b rest]
  | prod fs =>
    intro bytes
    simp only [stripLabels, decode, decodeFields_stripLabels fs bytes]
  | array e =>
    intro bytes
    simp only [stripLabels, decode, decode_stripLabels e]
  | bool => intro bytes; rfl
  | u8 => intro bytes; rfl
  | u16 => intro bytes; rfl
  | u32 => intro bytes; rfl
  | u64 => intro bytes; rfl
  | u128 => intro bytes; rfl
  | i8 => intro bytes; rfl
  | i16 => intro bytes; rfl
  | i32 => intro bytes; rfl
  | i64 => intro bytes; rfl
  | i128 => intro bytes; rfl
  | f32 => intro bytes; rfl
  | f64 => intro bytes; rfl
  | string => intro bytes; rfl

/-- Variant selection ignores labels. -/
theorem decodeVariant_stripLabels (vs : List (String × AlgebraicType)) :
    ∀ (k : Nat) (bytes : List Nat),
    decodeVariant (stripLabelsList vs) k bytes = decodeVariant vs k bytes := by
  cases vs with
  | nil => intro k bytes; rfl
  | cons p vs =>
    obtain ⟨l, t⟩ := p
    intro k bytes
    cases k with
    | zero => simp only [stripLabelsList, decodeVariant, decode_stripLabels t bytes]
    | succ k => exact decodeVariant_stripLabels vs k bytes

/-- Field decoding ignores labels. -/
theorem decodeFields_stripLabels (fs : List (String × AlgebraicType)) :
    ∀ bytes, decodeFields (stripLabelsList fs) bytes = decodeFields fs bytes := by
  cases fs with
  | nil => intro bytes; rfl
  | cons p fs =>
    obtain ⟨l, t⟩ := p
    intro bytes
    simp only [stripLabelsList, decodeFields, decode_stripLabels t,
      decodeFields_stripLabels fs]

end

mutual

/-- Satisfaction ignores labels: a value satisfies a type exactly when
it satisfies its label-stripped form. -/
theorem sat_stripLabels (v : AlgebraicValue) :
    ∀ t, sat v (stripLabels t) = sat v t := by
  cases v with
  | sum tag data =>
    intro t
    cases t <;> try rfl
    rename_i vs
    simp only [stripLabels, sat, variantType_stripLabelsList vs tag]
    cases hvt : variantType vs tag with
    | none => rfl
    | some tv => simp only [Option.map_some', sat_stripLabels data tv]
  | prod es =>
    intro t
    cases t <;> try rfl
    rename_i fs
    simp only [stripLabels, sat, satFields_stripLabels es fs]
  | array es =>
    intro t
    cases t <;> try rfl
    rename_i e
    simp only [stripLabels, sat, satElems_stripLabels es e]
  | bool b => intro t; cases t <;> rfl
  | u8 x => intro t; cases t <;> rfl
  | u16 x => intro t; cases t <;> rfl
  | u32 x => intro t; cases t <;> rfl
  | u64 x => intro t; cases t <;> rfl
  | u128 x => intro t; cases t <;> rfl
  | i8 x => intro t; cases t <;> rfl
  | i16 x => intro t; cases t <;> rfl
  | i32 x => intro t; cases t <;> rfl
  | i64 x => intro t; cases t <;> rfl
  | i128 x => intro t; cases t <;> rfl
  | f32 bits => intro t; cases t <;> rfl
  | f64 bits => intro t; cases t <;> rfl
  | string s => intro t; cases t <;> rfl

/-- Field satisfaction ignores labels. -/
theorem satFields_stripLabels (es : List AlgebraicValue) :
    ∀ fs, satFields es (stripLabelsList fs) = satFields es fs := by
  cases es with
  | nil =>
    intro fs
    cases fs with
    | nil => rfl
    | cons p ts => obtain ⟨l, t⟩ := p; rfl
  | cons v es =>
    intro fs
    cases fs with
    | nil => rfl
    | cons p ts =>
      obtain ⟨l, t⟩ := p
      simp only [stripLabelsList, satFields, sat_stripLabels v t, satFields_stripLabels es ts]

/-- Element satisfaction ignores labels. -/
theorem satElems_stripLabels (es : List AlgebraicValue) :
    ∀ t, satElems es (stripLabels t) = satElems es t := by
  cases es with
  | nil => intro t; rfl
  | cons v es =>
    intro t
    simp only [satElems, sat_stripLabels v t, satElems_stripLabels es t]

end

/-- C1: for every well-formed pair of an `AlgebraicValue` `v` and an
`AlgebraicType` `t` such that `v` satisfies `t`, decoding the encoding
of `v` with `t` returns exactly `v`. -/
theorem claim_C1_round_trip (v : AlgebraicValue) (t : AlgebraicType)
    (h : sat v t = true) : decode t (bsatn v) = .ok (v, []) := by
  have hd := decode_bsatn v t [] h
  simpa using hd

theorem claim_C1_round_trip_witness :
    sat (.sum 1 (.prod [.u16 300, .array [.bool true, .bool false]]))
        (.sum [("none", .prod []), ("some", .prod [("n", .u16), ("bs", .array .bool)])]) = true ∧
    decode (.sum [("none", .prod []), ("some", .prod [("n", .u16), ("bs", .array .bool)])])
        (bsatn (.sum 1 (.prod [.u16 300, .array [.bool true, .bool false]]))) =
      .ok (.sum 1 (.prod [.u16 300, .array [.bool true, .bool false]]), []) :=
  ⟨by decide, claim_C1_round_trip _ _ (by decide)⟩

/-- C2: for every `AlgebraicType` `T` (whose sum/product nodes fit the
`u32` length prefix), converting `T` to its meta-value, encoding it
with the ordinary encoder and decoding the bytes against the fixed
meta-schema yields the same meta-value. -/
theorem claim_C2_meta_bootstrap (T : AlgebraicType) (h : wf32 T = true) :
    decodeMeta (bsatn (toMetaValue T)) = .ok (toMetaValue T, []) := by
  unfold decodeMeta
  have hfuel := metaDepth_le_bsatn_length T
  have hd := decodeMetaF_toMetaValue T ((bsatn (toMetaValue T)).length) [] hfuel h
  simpa using hd

theorem claim_C2_meta_bootstrap_witness :
    wf32 (.sum [("a", .prod [("x", .array (.sum [("b", .u8)]))])]) = true ∧
    decodeMeta (bsatn (toMetaValue (.sum [("a", .prod [("x", .array (.sum [("b", .u8)]))])]))) =
      .ok (toMetaValue (.sum [("a", .prod [("x", .array (.sum [("b", .u8)]))])]), []) :=
  ⟨by decide, claim_C2_meta_bootstrap _ (by decide)⟩

/-- C3: encoding `ProductValue([U32(7), String("hi"), Bool(true)])`
against `Product[U32, String, Bool]` yields exactly the eleven bytes
`07 00 00 00 02 00 00 00 68 69 01` — fields concatenated in
declaration order, no labels, no padding, no product-level length
prefix — and decoding those bytes with that type returns the identical
value. -/
theorem claim_C3_concrete_product :
    bsatn (.prod [.u32 7, .string [0x68, 0x69], .bool true]) =
      [0x07, 0x00, 0x00, 0x00, 0x02, 0x00, 0x00, 0x00, 0x68, 0x69, 0x01] ∧
    decode (.prod [("f0", .u32), ("f1", .string), ("f2", .bool)])
        [0x07, 0x00, 0x00, 0x00, 0x02, 0x00, 0x00, 0x00, 0x68, 0x69, 0x01] =
      .ok (.prod [.u32 7, .string [0x68, 0x69], .bool true], []) :=
  ⟨by decide, by rfl⟩

/-- C4: every `SumValue` encodes as exactly one tag byte followed by
the payload's encoding; a zero-sized (unit) payload contributes zero
bytes, so `SumValue{tag: 2, data: Unit}` encodes as the single byte
`02`. -/
theorem claim_C4_sum_layout :
    (∀ (tag : Nat) (data : AlgebraicValue), tag < 256 →
      bsatn (.sum tag data) = tag :: bsatn data) ∧
    bsatn (AlgebraicValue.prod []) = [] ∧
    bsatn (.sum 2 (.prod [])) = [0x02] := by
  refine ⟨fun tag data h => ?_, rfl, rfl⟩
  simp [bsatn, Nat.mod_eq_of_lt h]

theorem claim_C4_sum_layout_witness :
    3 < 256 ∧ bsatn (.sum 3 (.bool true)) = 3 :: bsatn (.bool true) :=
  ⟨by decide, claim_C4_sum_layout.1 3 (.bool true) (by decide)⟩

/-- C5: an encoded `String`'s `u32` little-endian prefix equals
exactly the number of UTF-8 bytes that follow it, an encoded `Array`'s
prefix equals exactly the number of element encodings that follow, and
empty strings and arrays still write their four zero length bytes. -/
theorem claim_C5_length_correct :
    (∀ s : List Nat, s.length < 256 ^ 4 →
      bsatn (.string s) = natToLE 4 s.length ++ s ∧
      (bsatn (.string s)).drop 4 = s ∧
      leToNat ((bsatn (.string s)).take 4) = ((bsatn (.string s)).drop 4).length) ∧
    (∀ es : List AlgebraicValue, es.length < 256 ^ 4 →
      bsatn (.array es) = natToLE 4 es.length ++ bsatnList es ∧
      (bsatn (.array es)).drop 4 = bsatnList es ∧
      leToNat ((bsatn (.array es)).take 4) = es.length) ∧
    bsatn (.string []) = [0, 0, 0, 0] ∧ bsatn (.array []) = [0, 0, 0, 0] := by
  have htake : ∀ (n : Nat) (tail : List Nat), (natToLE 4 n ++ tail).take 4 = natToLE 4 n := by
    intro n tail
    conv_lhs => rw [show (4 : Nat) = (natToLE 4 n).length from (natToLE_length 4 n).symm]
    exact List.take_left _ _
  have hdrop : ∀ (n : Nat) (tail : List Nat), (natToLE 4 n ++ tail).drop 4 = tail := by
    intro n tail
    conv_lhs => rw [show (4 : Nat) = (natToLE 4 n).length from (natToLE_length 4 n).symm]
    exact List.drop_left _ _
  refine ⟨fun s hs => ⟨rfl, ?_, ?_⟩, fun es hes => ⟨rfl, ?_, ?_⟩, rfl, rfl⟩
  · simpa only [bsatn] using hdrop s.length s
  · simp only [bsatn, htake, hdrop, leToNat_natToLE_of_lt hs]
  · simpa only [bsatn] using hdrop es.length (bsatnList es)
  · simp only [bsatn, htake, leToNat_natToLE_of_lt hes]

theorem claim_C5_length_correct_witness :
    ([0x68, 0x69] : List Nat).length < 256 ^ 4 ∧
    bsatn (.string [0x68, 0x69]) = natToLE 4 2 ++ [0x68, 0x69] ∧
    leToNat ((bsatn (.string [0x68, 0x69])).take 4) =
      ((bsatn (.string [0x68, 0x69])).drop 4).length :=
  ⟨by decide, (claim_C5_length_correct.1 [0x68, 0x69] (by decide)).1,
    (claim_C5_length_correct.1 [0x68, 0x69] (by decide)).2.2⟩

/-- C6: `F32`/`F64` values encode as the little-endian bytes of their
raw bit pattern transmuted to `u32`/`u64` — byte-identical to the
corresponding unsigned encoding — and decoding returns the exact same
bit pattern, preserving NaN payloads and signed zeros bit for bit. -/
theorem claim_C6_float_bits :
    (∀ bits : Nat, bits < 256 ^ 4 →
      bsatn (.f32 bits) = natToLE 4 bits ∧
      bsatn (.f32 bits) = bsatn (.u32 bits) ∧
      decode .f32 (bsatn (.f32 bits)) = .ok (.f32 bits, [])) ∧
    (∀ bits : Nat, bits < 256 ^ 8 →
      bsatn (.f64 bits) = natToLE 8 bits ∧
      bsatn (.f64 bits) = bsatn (.u64 bits) ∧
      decode .f64 (bsatn (.f64 bits)) = .ok (.f64 bits, [])) := by
  refine ⟨fun bits h => ⟨rfl, rfl, ?_⟩, fun bits h => ⟨rfl, rfl, ?_⟩⟩
  · have hd := decodeFixed_natToLE 4 bits .f32 [] h
    simpa [bsatn] using hd
  · have hd := decodeFixed_natToLE 8 bits .f64 [] h
    simpa [bsatn] using hd

theorem claim_C6_float_bits_witness :
    (0x7FF8000000000001 : Nat) < 256 ^ 8 ∧
    decode .f64 (bsatn (.f64 0x7FF8000000000001)) = .ok (.f64 0x7FF8000000000001, []) :=
  ⟨by decide, (claim_C6_float_bits.2 0x7FF8000000000001 (by decide)).2.2⟩

/-- C7: for every `SumType` and every byte sequence whose first byte
is at least the number of variants, decoding returns the `InvalidTag`
error rather than producing a value. -/
theorem claim_C7_invalid_tag (variants : List (String × AlgebraicType)) (b : Nat)
    (rest : List Nat) (h : variants.length ≤ b) :
    decode (.sum variants) (b :: rest) = .error .invalidTag := by
  simp only [decode, decodeVariant_invalidTag variants b rest h]

theorem claim_C7_invalid_tag_witness :
    ([("A", AlgebraicType.u8)] : List (String × AlgebraicType)).length ≤ 5 ∧
    decode (.sum [("A", .u8)]) [5, 42] = .error .invalidTag :=
  ⟨by decide, claim_C7_invalid_tag [("A", .u8)] 5 [42] (by decide)⟩

/-- C8: a byte sequence that is too short — fewer remaining bytes than
a fixed-width primitive requires, or fewer than a decoded `u32` length
prefix declares — decodes to the `TruncatedInput` error value (the
decoder returns the error, it does not abort). -/
theorem claim_C8_truncated :
    (∀ (t : AlgebraicType) (w : Nat) (bytes : List Nat), fixedWidth t = some w →
      bytes.length < w → decode t bytes = .error .truncatedInput) ∧
    (∀ (n : Nat) (tail : List Nat), n < 256 ^ 4 → tail.length < n →
      decode .string (natToLE 4 n ++ tail) = .error .truncatedInput) ∧
    (∀ (et : AlgebraicType) (n : Nat), 0 < n → n < 256 ^ 4 → consumesInput et = true →
      decode (.array et) (natToLE 4 n) = .error .truncatedInput) := by
  refine ⟨decode_short_fixed, fun n tail hn hlen => ?_, fun et n hpos hn hc => ?_⟩
  · simp only [decode, takeExact_append tail (natToLE_length 4 n),
      leToNat_natToLE_of_lt hn, takeExact_short hlen]
  · have h4 : takeExact 4 (natToLE 4 n) = some (natToLE 4 n, []) := by
      have happ := takeExact_append ([] : List Nat) (natToLE_length 4 n)
      simpa using happ
    simp only [decode, h4, leToNat_natToLE_of_lt hn]
    match n, hpos with
    | n + 1, _ => simp only [decodeManyWith, decode_nil_of_consumes et hc]

theorem claim_C8_truncated_witness :
    decode .u32 [1, 2] = .error .truncatedInput ∧
    decode .string [2, 0, 0, 0, 9] = .error .truncatedInput ∧
    decode (.array .u8) [3, 0, 0, 0] = .error .truncatedInput :=
  ⟨claim_C8_truncated.1 .u32 4 [1, 2] rfl (by decide),
   claim_C8_truncated.2.1 2 [9] (by decide) (by decide),
   claim_C8_truncated.2.2 .u8 3 (by decide) (by decide) rfl⟩

/-- C9: encodings never contain field or variant labels.  In this
embedding the encoder `bsatn` is a function of the value alone — the
value model carries no labels, so structurally identical values are
equal and encode byte-identically whatever their types' names — and
this theorem shows that two types differing only in labels behave
identically out-of-band: they decode every byte sequence to the same
result, classify the same values, and decode the encoding of any
satisfying value back to that value. -/
theorem claim_C9_labels_immaterial (t t' : AlgebraicType)
    (h : stripLabels t = stripLabels t') :
    (∀ bytes, decode t bytes = decode t' bytes) ∧
    (∀ v, sat v t = sat v t') ∧
    (∀ v, sat v t = true → decode t' (bsatn v) = .ok (v, [])) := by
  have hdec : ∀ bytes, decode t bytes = decode t' bytes := fun bytes => by
    rw [← decode_stripLabels t bytes, h, decode_stripLabels t' bytes]
  have hsat : ∀ v, sat v t = sat v t' := fun v => by
    rw [← sat_stripLabels v t, h, sat_stripLabels v t']
  refine ⟨hdec, hsat, fun v hv => ?_⟩
  have hv' : sat v t' = true := by rw [← hsat v]; exact hv
  have hd := decode_bsatn v t' [] hv'
  simpa using hd

theorem claim_C9_labels_immaterial_witness :
    stripLabels (.prod [("name", .u8)]) = stripLabels (.prod [("other", .u8)]) ∧
    decode (.prod [("name", .u8)]) [7] = decode (.prod [("other", .u8)]) [7] :=
  ⟨rfl, (claim_C9_labels_immaterial (.prod [("name", .u8)]) (.prod [("other", .u8)]) rfl).1 [7]⟩

/-- C10: `Bool(b)` and `U8(b as u8)` encode byte-identically — both
`Bool(true)` and `U8(1)` encode to the single byte `01` — so encoding
is not injective across values of different types, and the same bytes
decode successfully against either layout-compatible type, returning
different values; only the type supplied at decode time
disambiguates. -/
theorem claim_C10_bool_u8_overlap :
    (∀ b : Bool, bsatn (.bool b) = bsatn (.u8 (if b then 1 else 0))) ∧
    bsatn (.bool true) = [1] ∧ bsatn (.u8 1) = [1] ∧
    decode .bool [1] = .ok (.bool true, []) ∧
    decode .u8 [1] = .ok (.u8 1, []) ∧
    AlgebraicValue.bool true ≠ AlgebraicValue.u8 1 := by
  refine ⟨fun b => by cases b <;> rfl, rfl, rfl, rfl, rfl, by simp⟩

end BSATN
